import Mathlib

/-!
Verification of the SQL-GuardRails predicate extractor
(`sql_guardrail/utils/sql_parser_utils.py`).

The extractor works on the token tree produced by the external `sqlparse`
library.  We embed that tree shallowly: a `Token` is either a leaf carrying a
lexical token type (`ttype`) and its text, or a group node (`Where`,
`Comparison`, `Parenthesis`, `Identifier`, statement, or any other grouping)
carrying its child tokens.  `sqlparse.parse` itself is external to the
repository, so the parse outcome (`none` for an exception inside the `try`
block, `some stmts` for a returned statement sequence) is the input of
`parse_sql_where_clauses`, exactly as the Python function's behaviour is a
function of that outcome.

Strings are modelled as `List Char` (`Str`); the Python string operations used
by the source (`.strip()`, `.upper()` restricted to ASCII letters, slicing
`[1:-1]`, `re.findall` for the quoted-element regex) are defined below and the
extractor functions are direct transcriptions of the Python source, with the
source line numbers cited on each definition.
-/

/-- Python strings, modelled as lists of characters. -/
abbrev Str := List Char

/-- The single-quote character. -/
def sQuote : Char := '\''

/-- The double-quote character. -/
def dQuote : Char := '"'

/-- The two quote characters recognised by line 26 of the source
(`value[0] in ["'", '"']`). -/
def isQuoteChar (c : Char) : Bool := c = sQuote ∨ c = dQuote

/-- Whitespace characters removed by Python `str.strip()`. -/
def isPySpace (c : Char) : Bool :=
  c = ' ' ∨ c = '\t' ∨ c = '\n' ∨ c = '\r' ∨ c = Char.ofNat 11 ∨ c = Char.ofNat 12

/-- Python `str.strip()`: drop whitespace from both ends. -/
def pyStrip (l : Str) : Str :=
  ((l.dropWhile isPySpace).reverse.dropWhile isPySpace).reverse

/-- ASCII case folding of one character, as done by Python `str.upper()` on
the ASCII range (the only range that occurs in SQL operators). -/
def asciiUpper (c : Char) : Char :=
  if 97 ≤ c.toNat ∧ c.toNat ≤ 122 then Char.ofNat (c.toNat - 32) else c

/-- Python `str.upper()` (ASCII model). -/
def pyUpper (l : Str) : Str := l.map asciiUpper

/-- Python slicing `s[1:-1]`: drop the first and the last character
(empty result for strings of length below two). -/
def pySlice1m1 (l : Str) : Str := (l.drop 1).dropLast

/-- The lexical token types (`sqlparse.tokens`) the source distinguishes:
`Keyword`, `DML` (= `Keyword.DML`, a distinct type object, so `ttype is not
Keyword` holds for it), `Punctuation`, string literals (`Literal.String.*`),
numeric literals, `Name`, plain `Operator`, `Operator.Comparison` (a distinct
object, so `ttype == Operator` is false for it), and whitespace. -/
inductive TType where
  | keyword | dml | punctuation | litString | litNumber | name | op | opComparison | whitespace
deriving DecidableEq

/-- The token-group classes (`sqlparse.sql`) the source distinguishes with
`isinstance`: `Where`, `Comparison`, `Parenthesis`, `Identifier`, the
top-level `Statement`, and any other grouping class. -/
inductive GroupKind where
  | statement | whereClause | comparison | parenthesis | identifier | otherGroup
deriving DecidableEq

/-- A `sqlparse` token: a leaf with a lexical type and its text, or a group
node with child tokens (a group's `ttype` is `None`). -/
inductive Token where
  | leaf (ttype : TType) (text : Str)
  | group (kind : GroupKind) (children : List Token)

mutual
def decEqToken (a b : Token) : Decidable (a = b) :=
  match a, b with
  | .leaf t1 s1, .leaf t2 s2 =>
    if h1 : t1 = t2 then
      if h2 : s1 = s2 then .isTrue (by rw [h1, h2]) else .isFalse (by simp [h2])
    else .isFalse (by simp [h1])
  | .leaf _ _, .group _ _ => .isFalse (by simp)
  | .group _ _, .leaf _ _ => .isFalse (by simp)
  | .group k1 c1, .group k2 c2 =>
    if h1 : k1 = k2 then
      match decEqTokenList c1 c2 with
      | .isTrue h2 => .isTrue (by rw [h1, h2])
      | .isFalse h2 => .isFalse (by simp [h2])
    else .isFalse (by simp [h1])

def decEqTokenList (a b : List Token) : Decidable (a = b) :=
  match a, b with
  | [], [] => .isTrue rfl
  | [], _ :: _ => .isFalse (by simp)
  | _ :: _, [] => .isFalse (by simp)
  | x :: xs, y :: ys =>
    match decEqToken x y with
    | .isTrue h1 =>
      match decEqTokenList xs ys with
      | .isTrue h2 => .isTrue (by rw [h1, h2])
      | .isFalse h2 => .isFalse (by simp [h2])
    | .isFalse h1 => .isFalse (by simp [h1])
end

instance : DecidableEq Token := decEqToken

/-- `token.tokens`: the children of a group (a leaf has none). -/
def Token.tokens : Token → List Token
  | .leaf _ _ => []
  | .group _ cs => cs

mutual
/-- `str(token)`: the source text covered by a token (a group's text is the
concatenation of its children's texts). -/
def Token.str : Token → Str
  | .leaf _ s => s
  | .group _ cs => Token.strList cs

def Token.strList : List Token → Str
  | [] => []
  | t :: ts => Token.str t ++ Token.strList ts
end

/-- `token.is_group`. -/
def Token.is_group : Token → Bool
  | .leaf _ _ => false
  | .group _ _ => true

/-- `token.is_whitespace` (`ttype` within `Whitespace`). -/
def Token.is_whitespace : Token → Bool
  | .leaf .whitespace _ => true
  | _ => false

/-- `token.ttype` (`none` for a group). -/
def Token.ttypeOf : Token → Option TType
  | .leaf t _ => some t
  | .group _ _ => none

/-- `isinstance(token, Where)`. -/
def Token.isWhere : Token → Bool
  | .group .whereClause _ => true
  | _ => false

/-- `isinstance(token, Comparison)`. -/
def Token.isComparison : Token → Bool
  | .group .comparison _ => true
  | _ => false

/-- `isinstance(token, Parenthesis)`. -/
def Token.isParenthesis : Token → Bool
  | .group .parenthesis _ => true
  | _ => false

/-- `isinstance(token, Identifier)`. -/
def Token.isIdentifier : Token → Bool
  | .group .identifier _ => true
  | _ => false

/-- Split a character list at the first occurrence of `q`: returns the part
before the occurrence and the part after it, or `none` when `q` is absent. -/
def splitAtChar (q : Char) : Str → Option (Str × Str)
  | [] => none
  | c :: cs =>
    if c = q then some ([], cs)
    else (splitAtChar q cs).map (fun p => (c :: p.1, p.2))

/-- One step of `re.findall` with the pattern of source line 39
(an alternation of a single-quoted and a double-quoted body): scan left to
right; at a quote character that has a matching closing quote, emit the
enclosed text and resume after the closing quote; at any other character (or
at an unterminated quote) move one character forward.  The fuel argument is
an upper bound on the number of scanning steps; `findQuoted` supplies the
input length, which always suffices because every step consumes at least one
character. -/
def findQuotedGo : Nat → Str → List Str
  | 0, _ => []
  | _, [] => []
  | fuel + 1, c :: rest =>
    if c = sQuote ∨ c = dQuote then
      match splitAtChar c rest with
      | some (content, rest2) => content :: findQuotedGo fuel rest2
      | none => findQuotedGo fuel rest
    else findQuotedGo fuel rest

/-- `re.findall(r'...quoted-string alternation...', content)`, with each
match reduced to its inner text, as done by source lines 39-44. -/
def findQuoted (l : Str) : List Str := findQuotedGo l.length l

/-- The `Union[str, List[str]]` value produced by `_extract_value_from_token`
when extraction succeeds. -/
inductive PyValue where
  | str (s : Str)
  | list (vs : List Str)
deriving DecidableEq

/-- One parsed condition dictionary (source lines 109-114 and 137-142). -/
structure Condition where
  column_name : Str
  operator : Str
  query_parameter_values : List Str
  raw_value_in_query : Str
deriving DecidableEq

/-- `_extract_value_from_token` (source lines 10-53):
string literals have their surrounding quote pair removed when the first and
the last character are each a quote (line 26); a `Parenthesis` has its outer
characters sliced off, is stripped, an empty remainder yields the empty list
(lines 30-32), otherwise the quoted elements found by the regex are returned,
`none` when there are none (lines 39-46); an `Identifier` yields its stripped
text (lines 49-50); everything else yields `none` (line 53). -/
def _extract_value_from_token (token : Token) : Option PyValue :=
  if token.ttypeOf = some TType.litString then
    let value := token.str
    some (.str
      (if value ≠ [] ∧ 2 ≤ value.length ∧
          isQuoteChar (value.headD ' ') ∧ isQuoteChar (value.getLastD ' ')
       then pySlice1m1 value else value))
  else if token.isParenthesis then
    let content := pyStrip (pySlice1m1 token.str)
    if content = [] then
      some (.list [])
    else
      let values := findQuoted content
      if values = [] then none else some (.list values)
  else if token.isIdentifier then
    some (.str (pyStrip token.str))
  else
    none

mutual
/-- `find_where_tokens` (source lines 81-86): walk the children; a `Where`
group is collected (and, because of the `elif`, not descended into); any
other group is descended into recursively. -/
def find_where_tokens : Token → List Token
  | .leaf _ _ => []
  | .group _ cs => fwtList cs

def fwtList : List Token → List Token
  | [] => []
  | t :: ts =>
    (match t with
     | .group .whereClause _ => [t]
     | .group _ _ => find_where_tokens t
     | .leaf _ _ => []) ++ fwtList ts
end

/-- `[value] if not isinstance(value, list) else value` (source line 112). -/
def PyValue.asValueList : PyValue → List Str
  | .str s => [s]
  | .list vs => vs

/-- The body of the grouped-comparison pass for one `Comparison` token
(source lines 96-115): keep the non-whitespace children; with at least three
of them, the first is the column, the second the operator
(`.strip().upper()`), the third the value token; a successfully extracted
value appends one condition. -/
def comparisonStep (compChildren : List Token) (acc : List Condition) : List Condition :=
  match compChildren.filter (fun t => ¬ t.is_whitespace) with
  | c0 :: c1 :: c2 :: _ =>
    match _extract_value_from_token c2 with
    | some v =>
        acc ++ [{ column_name := pyStrip c0.str,
                  operator := pyUpper (pyStrip c1.str),
                  query_parameter_values := v.asValueList,
                  raw_value_in_query := pyStrip c2.str }]
    | none => acc
  | _ => acc

/-- The grouped-comparison pass (source lines 94-115): every `Comparison`
child of the `WHERE` clause is processed by `comparisonStep`. -/
def comparisonPass : List Token → List Condition → List Condition
  | [], acc => acc
  | .group .comparison cs :: ts, acc => comparisonPass ts (comparisonStep cs acc)
  | _ :: ts, acc => comparisonPass ts acc

/-- The filter of source line 118: drop whitespace tokens and tokens whose
`ttype` is exactly `Keyword` (`Keyword.DML` and `None` survive, since the
comparison is by object identity). -/
def pass2Keep (t : Token) : Bool :=
  ¬ t.is_whitespace ∧ t.ttypeOf ≠ some TType.keyword

/-- The fallback flat-token scan (source lines 120-161): while three tokens
remain, a triple (identifier, operator-or-`IN`/`LIKE`/`=`, value) is tried;
an `IN` with a `Parenthesis` appends a condition when the extracted values
are truthy (nonempty), a string-literal value appends a condition when
extraction succeeds; both branches then skip three tokens, every other
outcome advances by one token.  The `.str` case inside the `IN` branch and
the `.list` case inside the string-literal branch transcribe Python paths
that the guards of `_extract_value_from_token` make unreachable. -/
def fallbackScan : List Token → List Condition → List Condition
  | t0 :: t1 :: t2 :: rest, acc =>
    if t0.isIdentifier then
      if t1.ttypeOf = some TType.op ∨ pyUpper t1.str ∈ ["IN".toList, "LIKE".toList, "=".toList] then
        let column_name := pyStrip t0.str
        let operator := pyStrip (pyUpper t1.str)
        if operator = "IN".toList ∧ t2.isParenthesis then
          match _extract_value_from_token t2 with
          | some (.list vs) =>
            if vs ≠ [] then
              fallbackScan rest (acc ++ [{ column_name := column_name, operator := operator,
                                           query_parameter_values := vs,
                                           raw_value_in_query := pyStrip t2.str }])
            else fallbackScan rest acc
          | some (.str s) =>
            if s ≠ [] then
              fallbackScan rest (acc ++ [{ column_name := column_name, operator := operator,
                                           query_parameter_values := [s],
                                           raw_value_in_query := pyStrip t2.str }])
            else fallbackScan rest acc
          | none => fallbackScan rest acc
        else if t2.ttypeOf = some TType.litString then
          match _extract_value_from_token t2 with
          | some (.str s) =>
            fallbackScan rest (acc ++ [{ column_name := column_name, operator := operator,
                                         query_parameter_values := [s],
                                         raw_value_in_query := pyStrip t2.str }])
          | some (.list _) => fallbackScan rest acc
          | none => fallbackScan rest acc
        else fallbackScan (t1 :: t2 :: rest) acc
      else fallbackScan (t1 :: t2 :: rest) acc
    else fallbackScan (t1 :: t2 :: rest) acc
  | _, acc => acc

/-- The loop over the collected `WHERE` clauses (source lines 92-161): run
the grouped-comparison pass, then the fallback scan over the filtered
children, accumulating conditions. -/
def whereLoop : List Token → List Condition → List Condition
  | [], acc => acc
  | w :: ws, acc =>
    whereLoop ws (fallbackScan (w.tokens.filter pass2Keep) (comparisonPass w.tokens acc))

/-- The loop over the parsed statements (source lines 77-161). -/
def stmtsLoop : List Token → List Condition → List Condition
  | [], acc => acc
  | s :: ss, acc => stmtsLoop ss (whereLoop (find_where_tokens s) acc)

/-- `parse_sql_where_clauses` (source lines 55-168) as a function of the
outcome of the external `sqlparse.parse` call: `none` models an exception
raised inside the `try` block (caught at line 166, returning `[]`),
`some []` the falsy empty statement sequence (lines 73-75), and a nonempty
statement sequence is processed by the two extraction passes. -/
def parse_sql_where_clauses (parsed : Option (List Token)) : List Condition :=
  match parsed with
  | none => []
  | some stmts => if stmts = [] then [] else stmtsLoop stmts []

/-! ### Concrete token trees used as inputs below

Each tree is (the embedding of) a `sqlparse` token tree for the SQL fragment
named in its comment. -/

/-- The keyword token `WHERE`. -/
def kwWHERE : Token := .leaf .keyword "WHERE".toList

/-- The keyword token `AND`. -/
def kwAND : Token := .leaf .keyword "AND".toList

/-- The keyword token `IN` (`sqlparse` lexes `IN` with `ttype` `Keyword`). -/
def kwIN : Token := .leaf .keyword "IN".toList

/-- A single-space whitespace token. -/
def wsT : Token := .leaf .whitespace " ".toList

/-- The identifier `a`. -/
def identA : Token := .group .identifier [.leaf .name "a".toList]

/-- The identifier `b`. -/
def identB : Token := .group .identifier [.leaf .name "b".toList]

/-- The comparison operator token `=` (`ttype` `Operator.Comparison`). -/
def eqTok : Token := .leaf .opComparison "=".toList

/-- The single-quoted string literal `'x'`. -/
def litX : Token := .leaf .litString [sQuote, 'x', sQuote]

/-- The single-quoted string literal `'y'`. -/
def litY : Token := .leaf .litString [sQuote, 'y', sQuote]

/-- The empty parenthesis group `()`. -/
def parenEmpty : Token :=
  .group .parenthesis [.leaf .punctuation "(".toList, .leaf .punctuation ")".toList]

/-- The `WHERE` clause of `SELECT * FROM t WHERE a = b`: the predicate is a
grouped `Comparison` whose right-hand side is the identifier `b` (not a
string literal and not a parenthesized list). -/
def identRhsWhere : Token :=
  .group .whereClause [kwWHERE, wsT, .group .comparison [identA, wsT, eqTok, wsT, identB]]

/-- A one-statement parse outcome around `identRhsWhere`. -/
def identRhsStmt : Token := .group .statement [identRhsWhere]

/-- The `WHERE` clause of `... WHERE a IN ()` in the flat tokenization
`sqlparse` produces for an ungrouped `IN` predicate: identifier, keyword
`IN`, empty parenthesis group. -/
def flatEmptyInWhere : Token :=
  .group .whereClause [kwWHERE, wsT, identA, wsT, kwIN, wsT, parenEmpty]

/-- A one-statement parse outcome around `flatEmptyInWhere`. -/
def flatEmptyInStmt : Token := .group .statement [flatEmptyInWhere]

/-- A `WHERE` clause containing the grouped comparison `a = 'x'` and,
after `AND`, the same predicate `a = 'x'` left ungrouped in the flat token
stream. -/
def dupPairWhere : Token :=
  .group .whereClause
    [kwWHERE, wsT, .group .comparison [identA, wsT, eqTok, wsT, litX], wsT, kwAND, wsT,
     identA, wsT, eqTok, wsT, litX]

/-- A one-statement parse outcome around `dupPairWhere`. -/
def dupPairStmt : Token := .group .statement [dupPairWhere]

/-- The condition `a = 'x'` extracted from `dupPairWhere` (by either pass). -/
def dupCond : Condition :=
  { column_name := "a".toList, operator := "=".toList,
    query_parameter_values := ["x".toList], raw_value_in_query := [sQuote, 'x', sQuote] }

/-- A `WHERE` clause whose first predicate `a = 'x'` is left ungrouped in
the flat token stream and whose second predicate `b = 'y'` is a grouped
`Comparison`: textually `WHERE a = 'x' AND b = 'y'`. -/
def mixedOrderWhere : Token :=
  .group .whereClause
    [kwWHERE, wsT, identA, wsT, eqTok, wsT, litX, wsT, kwAND, wsT,
     .group .comparison [identB, wsT, eqTok, wsT, litY]]

/-- A one-statement parse outcome around `mixedOrderWhere`. -/
def mixedOrderStmt : Token := .group .statement [mixedOrderWhere]

/-- The condition `a = 'x'` extracted from `mixedOrderWhere` (fallback pass). -/
def condA : Condition :=
  { column_name := "a".toList, operator := "=".toList,
    query_parameter_values := ["x".toList], raw_value_in_query := [sQuote, 'x', sQuote] }

/-- The condition `b = 'y'` extracted from `mixedOrderWhere` (grouped pass). -/
def condB : Condition :=
  { column_name := "b".toList, operator := "=".toList,
    query_parameter_values := ["y".toList], raw_value_in_query := [sQuote, 'y', sQuote] }

/-- The inner `WHERE` clause `WHERE b = 'y'` of a subquery. -/
def innerWhere : Token :=
  .group .whereClause [kwWHERE, wsT, .group .comparison [identB, wsT, eqTok, wsT, litY]]

/-- The parenthesized subquery `(SELECT b WHERE b = 'y')` containing
`innerWhere`. -/
def parenSubquery : Token :=
  .group .parenthesis
    [.leaf .punctuation "(".toList, .leaf .dml "SELECT".toList, wsT, identB, wsT,
     innerWhere, .leaf .punctuation ")".toList]

/-- The outer `WHERE` clause `WHERE a IN (SELECT b WHERE b = 'y')`; the
nested `innerWhere` sits inside its parenthesized subquery. -/
def outerWhere : Token := .group .whereClause [kwWHERE, wsT, identA, wsT, kwIN, wsT, parenSubquery]

/-- A one-statement parse outcome around `outerWhere`. -/
def nestedWhereStmt : Token := .group .statement [outerWhere]

/-- The keyword token `in` in lower case. -/
def kwInLower : Token := .leaf .keyword "in".toList

/-- A grouped `Comparison` for `a in ()` (an empty `IN` list that the
tokenizer grouped into a comparison). -/
def groupedEmptyIn : Token := .group .comparison [identA, wsT, kwInLower, wsT, parenEmpty]

/-- A one-statement parse outcome whose `WHERE` clause holds `groupedEmptyIn`. -/
def groupedEmptyInStmt : Token :=
  .group .statement [.group .whereClause [kwWHERE, wsT, groupedEmptyIn]]

/-- The parenthesized list `('a', "b")` with one single-quoted and one
double-quoted element. -/
def parenListAB : Token :=
  .group .parenthesis
    [.leaf .punctuation "(".toList, .leaf .litString [sQuote, 'a', sQuote],
     .leaf .punctuation ",".toList, wsT, .leaf .litString [dQuote, 'b', dQuote],
     .leaf .punctuation ")".toList]

/-! ### Helper lemmas -/

/-- Two characters are equal when their code points are. -/
theorem char_eq_of_toNat_eq {c d : Char} (h : c.toNat = d.toNat) : c = d :=
  Char.ext (UInt32.ext h)

/-- `Char.ofNat` on the code of an ASCII upper-case letter. -/
theorem toNat_ofNat_upper (m : Nat) (h1 : 65 ≤ m) (h2 : m ≤ 90) :
    (Char.ofNat m).toNat = m := by
  interval_cases m <;> decide

/-- The last element of a list ending in `[a]`. -/
theorem getLastD_append_single (l : Str) (a d : Char) : (l ++ [a]).getLastD d = a := by simp

/-- `_extract_value_from_token` on any string-literal token whose text is a
quote character, then arbitrary contents, then a quote character: the two
outer characters are removed (source line 26), regardless of whether the two
quote characters match. -/
theorem extract_quoted (s : Str) (q1 q2 : Char)
    (h1 : q1 = sQuote ∨ q1 = dQuote) (h2 : q2 = sQuote ∨ q2 = dQuote) :
    _extract_value_from_token (.leaf .litString (q1 :: (s ++ [q2]))) = some (.str s) := by
  unfold _extract_value_from_token
  have hq1 : isQuoteChar q1 = true := by
    unfold isQuoteChar; exact decide_eq_true h1
  have hq2 : isQuoteChar q2 = true := by
    unfold isQuoteChar; exact decide_eq_true h2
  simp only [Token.ttypeOf, Token.str, if_pos]
  have hcons : q1 :: (s ++ [q2]) = (q1 :: s) ++ [q2] := by simp
  have hcond : (q1 :: (s ++ [q2])) ≠ [] ∧ 2 ≤ (q1 :: (s ++ [q2])).length ∧
      isQuoteChar ((q1 :: (s ++ [q2])).headD ' ') = true ∧
      isQuoteChar ((q1 :: (s ++ [q2])).getLastD ' ') = true := by
    refine ⟨by simp, by simp, by simpa using hq1, ?_⟩
    rw [hcons, getLastD_append_single]
    exact hq2
  rw [if_pos hcond]
  unfold pySlice1m1
  simp

/-- C1: `parse_sql_where_clauses` never propagates a parse failure: when the
`sqlparse.parse` call raises (outcome `none`, caught by the `except` at
source line 166) or returns an empty, falsy statement sequence (source lines
73-75), the function returns the empty condition list instead of an error. -/
theorem parse_fail_open :
    parse_sql_where_clauses none = [] ∧ parse_sql_where_clauses (some []) = [] :=
  ⟨rfl, rfl⟩

/-- C6: value extraction on a quoted string-literal token returns the
literal's contents with the surrounding quote characters removed. -/
theorem extract_strips_surrounding_quotes (s : Str) (q : Char)
    (hq : q = sQuote ∨ q = dQuote) :
    _extract_value_from_token (.leaf .litString (q :: (s ++ [q]))) = some (.str s) :=
  extract_quoted s q q hq hq

/-- Witness for C6: the token `'United States'` yields `United States`. -/
theorem extract_strips_surrounding_quotes_witness :
    _extract_value_from_token
      (.leaf .litString (sQuote :: ("United States".toList ++ [sQuote]))) =
      some (.str "United States".toList) :=
  extract_strips_surrounding_quotes "United States".toList sQuote (Or.inl rfl)

/-- C10: quote stripping removes the first and last character whenever each
is any quote character, including mismatched pairs: a literal starting with a
single quote and ending with a double quote (or vice versa) still loses both
outer characters. -/
theorem extract_strips_mismatched_quotes (s : Str) :
    _extract_value_from_token (.leaf .litString (sQuote :: (s ++ [dQuote]))) = some (.str s) ∧
    _extract_value_from_token (.leaf .litString (dQuote :: (s ++ [sQuote]))) = some (.str s) :=
  ⟨extract_quoted s sQuote dQuote (Or.inl rfl) (Or.inr rfl),
   extract_quoted s dQuote sQuote (Or.inr rfl) (Or.inl rfl)⟩

/-- `_extract_value_from_token` on a `Parenthesis` whose inner text strips to
nothing: source lines 30-32 return the empty list. -/
theorem extract_empty_paren (p : Token) (hp : p.isParenthesis = true)
    (hc : pyStrip (pySlice1m1 p.str) = []) :
    _extract_value_from_token p = some (.list []) := by
  match p, hp with
  | .group .parenthesis cs, _ =>
    unfold _extract_value_from_token
    rw [if_neg (by simp [Token.ttypeOf])]
    rw [if_pos (by simp [Token.isParenthesis])]
    simp only [hc]
    simp

/-- C3 (counterexample): in `WHERE a = b` the comparison's right-hand side is
the identifier `b` — not a quoted string literal and not a parenthesized
list — yet the extractor emits a Condition for it, with the identifier text
as the value. -/
theorem identRhs_condition_emitted :
    parse_sql_where_clauses (some [identRhsStmt]) =
      [{ column_name := "a".toList, operator := "=".toList,
         query_parameter_values := ["b".toList], raw_value_in_query := "b".toList }] := by
  decide

/-- C3 (amended): a comparison right-hand side that is not a quoted string
literal, not a parenthesized list, and also not an identifier (e.g. a number)
yields no value, and the grouped-comparison pass drops the condition. -/
theorem extract_nonliteral_dropped (t : Token)
    (hs : t.ttypeOf ≠ some TType.litString) (hp : t.isParenthesis = false)
    (hi : t.isIdentifier = false) :
    _extract_value_from_token t = none ∧
    (∀ (c0 c1 : Token) (acc : List Condition),
      c0.is_whitespace = false → c1.is_whitespace = false → t.is_whitespace = false →
      comparisonStep [c0, c1, t] acc = acc) := by
  have hnone : _extract_value_from_token t = none := by
    unfold _extract_value_from_token
    rw [if_neg hs, if_neg (by simp [hp]), if_neg (by simp [hi])]
  refine ⟨hnone, ?_⟩
  intro c0 c1 acc h0 h1 h2
  unfold comparisonStep
  have hfil : List.filter (fun t => ¬ t.is_whitespace) [c0, c1, t] = [c0, c1, t] := by
    simp [List.filter, h0, h1, h2]
  rw [hfil]
  simp only [hnone]

/-- Witness for C3 (amended): a numeric literal `5` as right-hand side. -/
theorem extract_nonliteral_dropped_witness :
    _extract_value_from_token (.leaf .litNumber "5".toList) = none ∧
    comparisonStep [identA, eqTok, .leaf .litNumber "5".toList] [] = [] := by
  have h := extract_nonliteral_dropped (.leaf .litNumber "5".toList)
    (by decide) (by decide) (by decide)
  exact ⟨h.1, h.2 identA eqTok [] (by decide) (by decide) (by decide)⟩

/-- C2 (counterexample): for the flat tokenization of `WHERE a IN ()` (the
shape `sqlparse` produces when it does not group the `IN` predicate —
identifier, keyword `IN`, empty parenthesis), the extractor emits no
Condition at all: the keyword `IN` is removed by the filter of source line
118, and even a surviving `IN` would be dropped by the falsy-empty-list test
of line 136. -/
theorem flatEmptyIn_no_condition :
    parse_sql_where_clauses (some [flatEmptyInStmt]) = [] := by
  decide

/-- C2 (amended): an empty `IN ()` yields a Condition with an empty value
list only through the grouped-comparison pass (source line 108 keeps the
empty list because it is not `None`); in the fallback flat-token scan the
empty value list is falsy (source line 136) and the predicate yields no
Condition. -/
theorem emptyIn_grouped_only (p : Token) (hp : p.isParenthesis = true)
    (hc : pyStrip (pySlice1m1 p.str) = []) :
    (∀ (c0 c1 : Token) (acc : List Condition),
      c0.is_whitespace = false → c1.is_whitespace = false →
      comparisonStep [c0, c1, p] acc =
        acc ++ [{ column_name := pyStrip c0.str, operator := pyUpper (pyStrip c1.str),
                  query_parameter_values := [], raw_value_in_query := pyStrip p.str }]) ∧
    (∀ (t0 t1 : Token) (rest : List Token) (acc : List Condition),
      t0.isIdentifier = true →
      (t1.ttypeOf = some TType.op ∨ pyUpper t1.str ∈ ["IN".toList, "LIKE".toList, "=".toList]) →
      pyStrip (pyUpper t1.str) = "IN".toList →
      fallbackScan (t0 :: t1 :: p :: rest) acc = fallbackScan rest acc) := by
  have hext := extract_empty_paren p hp hc
  have hpw : p.is_whitespace = false := by
    match p, hp with
    | .group .parenthesis cs, _ => rfl
  constructor
  · intro c0 c1 acc h0 h1
    unfold comparisonStep
    have hfil : List.filter (fun t => ¬ t.is_whitespace) [c0, c1, p] = [c0, c1, p] := by
      simp [List.filter, h0, h1, hpw]
    rw [hfil]
    simp only [hext, PyValue.asValueList]
  · intro t0 t1 rest acc h0 h1 hop
    rw [fallbackScan]
    rw [if_pos h0, if_pos h1, if_pos ⟨hop, hp⟩]
    simp only [hext]
    rw [if_neg (by simp)]

/-- Witness for C2 (amended): `a in ()` as a grouped comparison emits the
empty-value-list Condition; the flat triple for `a IN ()` (with an `IN`
token that survives the keyword filter) emits nothing. -/
theorem emptyIn_grouped_only_witness :
    comparisonStep [identA, kwInLower, parenEmpty] [] =
      [{ column_name := "a".toList, operator := "IN".toList,
         query_parameter_values := [], raw_value_in_query := "()".toList }] ∧
    fallbackScan [identA, .leaf .opComparison "IN".toList, parenEmpty] [] = [] := by
  have h := emptyIn_grouped_only parenEmpty (by decide) (by decide)
  exact ⟨(h.1 identA kwInLower [] (by decide) (by decide)).trans (by decide),
         (h.2 identA (.leaf .opComparison "IN".toList) [] [] (by decide) (by decide)
           (by decide)).trans (by decide)⟩

/-! ### Accumulator lemmas: every loop appends to the running condition list -/

/-- `comparisonStep` only appends to its accumulator. -/
theorem comparisonStep_append (cs : List Token) (acc : List Condition) :
    comparisonStep cs acc = acc ++ comparisonStep cs [] := by
  unfold comparisonStep
  split
  · split <;> simp
  · simp

/-- `comparisonPass` only appends to its accumulator. -/
theorem comparisonPass_append (ts : List Token) (acc : List Condition) :
    comparisonPass ts acc = acc ++ comparisonPass ts [] := by
  induction ts generalizing acc with
  | nil => simp only [comparisonPass, List.append_nil]
  | cons t ts ih =>
    cases t with
    | leaf tt s =>
      simp only [comparisonPass]
      exact ih acc
    | group k cs =>
      cases k with
      | comparison =>
        simp only [comparisonPass]
        rw [ih (comparisonStep cs acc), comparisonStep_append, ih (comparisonStep cs [])]
        simp
      | statement => simp only [comparisonPass]; exact ih acc
      | whereClause => simp only [comparisonPass]; exact ih acc
      | parenthesis => simp only [comparisonPass]; exact ih acc
      | identifier => simp only [comparisonPass]; exact ih acc
      | otherGroup => simp only [comparisonPass]; exact ih acc

/-- `fallbackScan` only appends to its accumulator. -/
theorem fallbackScan_append (l : List Token) (acc : List Condition) :
    fallbackScan l acc = acc ++ fallbackScan l [] :=
  match l with
  | [] => by simp [fallbackScan]
  | [t] => by simp [fallbackScan]
  | [t, t'] => by simp [fallbackScan]
  | t0 :: t1 :: t2 :: rest => by
    have ihRest : ∀ a, fallbackScan rest a = a ++ fallbackScan rest [] :=
      fun a => fallbackScan_append rest a
    have ihStep : ∀ a, fallbackScan (t1 :: t2 :: rest) a = a ++ fallbackScan (t1 :: t2 :: rest) [] :=
      fun a => fallbackScan_append (t1 :: t2 :: rest) a
    simp only [fallbackScan]
    cases hv : _extract_value_from_token t2 with
    | none =>
      dsimp only
      split_ifs <;> first | exact ihRest acc | exact ihStep acc
    | some v =>
      cases v with
      | str s =>
        dsimp only
        split_ifs <;>
          first
          | exact ihRest acc
          | exact ihStep acc
          | rw [List.nil_append, ihRest (acc ++ [_]), ihRest [_], List.append_assoc]
      | list vs =>
        dsimp only
        split_ifs <;>
          first
          | exact ihRest acc
          | exact ihStep acc
          | rw [List.nil_append, ihRest (acc ++ [_]), ihRest [_], List.append_assoc]

/-- `whereLoop` only appends to its accumulator. -/
theorem whereLoop_append (ws : List Token) (acc : List Condition) :
    whereLoop ws acc = acc ++ whereLoop ws [] := by
  induction ws generalizing acc with
  | nil => simp [whereLoop]
  | cons w ws ih =>
    rw [whereLoop, whereLoop]
    rw [ih (fallbackScan (List.filter pass2Keep w.tokens) (comparisonPass w.tokens acc)),
        ih (fallbackScan (List.filter pass2Keep w.tokens) (comparisonPass w.tokens []))]
    rw [fallbackScan_append _ (comparisonPass w.tokens acc),
        fallbackScan_append _ (comparisonPass w.tokens []),
        comparisonPass_append w.tokens acc]
    simp

/-- `stmtsLoop` only appends to its accumulator. -/
theorem stmtsLoop_append (ss : List Token) (acc : List Condition) :
    stmtsLoop ss acc = acc ++ stmtsLoop ss [] := by
  induction ss generalizing acc with
  | nil => simp [stmtsLoop]
  | cons s ss ih =>
    rw [stmtsLoop, stmtsLoop]
    rw [ih (whereLoop (find_where_tokens s) acc), ih (whereLoop (find_where_tokens s) []),
        whereLoop_append (find_where_tokens s) acc]
    simp

/-- One `WHERE` clause contributes the grouped-comparison conditions first,
then the fallback-scan conditions. -/
theorem whereLoop_flatMap (ws : List Token) :
    whereLoop ws [] =
      ws.flatMap (fun w =>
        comparisonPass w.tokens [] ++ fallbackScan (w.tokens.filter pass2Keep) []) := by
  induction ws with
  | nil => rfl
  | cons w ws ih =>
    rw [whereLoop, whereLoop_append, ih, fallbackScan_append, comparisonPass_append]
    simp

/-- The statement loop concatenates per-statement contributions. -/
theorem stmtsLoop_flatMap (ss : List Token) :
    stmtsLoop ss [] = ss.flatMap (fun s => whereLoop (find_where_tokens s) []) := by
  induction ss with
  | nil => rfl
  | cons s ss ih =>
    rw [stmtsLoop, stmtsLoop_append, ih, whereLoop_append]
    simp

/-- Structure of the extractor's output: per statement, per collected
`WHERE` clause, all grouped-comparison-pass conditions followed by all
fallback-scan conditions. -/
theorem parse_decomposition (stmts : List Token) :
    parse_sql_where_clauses (some stmts) =
      stmts.flatMap (fun s =>
        (find_where_tokens s).flatMap (fun w =>
          comparisonPass w.tokens [] ++ fallbackScan (w.tokens.filter pass2Keep) [])) := by
  cases stmts with
  | nil => rfl
  | cons s ss =>
    rw [parse_sql_where_clauses]
    rw [if_neg (by simp)]
    rw [stmtsLoop_flatMap]
    simp [whereLoop_flatMap]

/-- C4 (counterexample): for `dupPairWhere` (grouped comparison `a = 'x'`
followed by the same predicate left flat in the token stream) the
grouped-comparison pass emits `a = 'x'` and the fallback scan then emits a
Condition with the same column/value pair again, so the extractor returns
the condition twice. -/
theorem dupPair_both_passes_emit :
    comparisonPass dupPairWhere.tokens [] = [dupCond] ∧
    fallbackScan (dupPairWhere.tokens.filter pass2Keep) [] = [dupCond] ∧
    parse_sql_where_clauses (some [dupPairStmt]) = [dupCond, dupCond] := by
  decide

/-- C4 (amended): the fallback scan performs no deduplication against the
grouped-comparison pass: the extractor can return duplicate Conditions for
the same column/value pair within one `WHERE` clause (here the condition
`a = 'x'` is returned twice). -/
theorem fallback_no_dedup :
    (parse_sql_where_clauses (some [dupPairStmt])).count dupCond = 2 := by
  decide

/-- C8 (counterexample): in `mixedOrderWhere` the flat predicate `a = 'x'`
occurs textually before the grouped predicate `b = 'y'` (first conjunct),
but the extractor returns the grouped-pass condition `b = 'y'` first
(second conjunct), so the output is not in first-encountered order. -/
theorem mixedOrder_not_source_order :
    Token.str mixedOrderWhere =
      ("WHERE a = ".toList ++ [sQuote, 'x', sQuote] ++
        " AND b = ".toList ++ [sQuote, 'y', sQuote]) ∧
    parse_sql_where_clauses (some [mixedOrderStmt]) = [condB, condA] ∧
    condA ≠ condB := by
  decide

/-- C8 (amended): the extractor emits one Condition per triple each pass
finds, ordered per statement and per `WHERE` clause with all
grouped-comparison-pass Conditions first (in token order) followed by all
fallback-scan Conditions (in scan order) — which is first-seen order within
each pass but not necessarily across the two passes. -/
theorem parse_emits_passwise (stmts : List Token) :
    parse_sql_where_clauses (some stmts) =
      stmts.flatMap (fun s =>
        (find_where_tokens s).flatMap (fun w =>
          comparisonPass w.tokens [] ++ fallbackScan (w.tokens.filter pass2Keep) [])) :=
  parse_decomposition stmts

/-- Specification relation for the `WHERE`-collection behaviour:
`CollectsWhere t w` holds when `w` is a `Where` group reachable from `t` by
descending through group children without entering another `Where` group on
the way. -/
inductive CollectsWhere : Token → Token → Prop where
  | here {t w : Token} : w ∈ t.tokens → w.isWhere = true → CollectsWhere t w
  | nested {t g w : Token} : g ∈ t.tokens → g.is_group = true → g.isWhere = false →
      CollectsWhere g w → CollectsWhere t w

/-- Membership in the list-level collector `fwtList`. -/
theorem mem_fwtList_iff (cs : List Token) (w : Token) :
    w ∈ fwtList cs ↔ ∃ g ∈ cs, (g = w ∧ w.isWhere = true) ∨
      (g.is_group = true ∧ g.isWhere = false ∧ w ∈ find_where_tokens g) := by
  induction cs with
  | nil => simp [fwtList]
  | cons t ts ih =>
    cases t with
    | leaf tt s =>
      rw [fwtList]
      rw [List.nil_append, ih]
      constructor
      · rintro ⟨g, hg, hc⟩
        exact ⟨g, List.mem_cons_of_mem _ hg, hc⟩
      · rintro ⟨g, hg, hc⟩
        rcases List.mem_cons.mp hg with rfl | hg'
        · rcases hc with ⟨rfl, hw⟩ | ⟨hgr, _, _⟩
          · simp [Token.isWhere] at hw
          · simp [Token.is_group] at hgr
        · exact ⟨g, hg', hc⟩
    | group k cs' =>
      by_cases hk : k = GroupKind.whereClause
      · subst hk
        rw [fwtList]
        rw [List.singleton_append, List.mem_cons, ih]
        constructor
        · rintro (rfl | ⟨g, hg, hc⟩)
          · exact ⟨_, List.mem_cons_self _ _, Or.inl ⟨rfl, rfl⟩⟩
          · exact ⟨g, List.mem_cons_of_mem _ hg, hc⟩
        · rintro ⟨g, hg, hc⟩
          rcases List.mem_cons.mp hg with rfl | hg'
          · rcases hc with ⟨rfl, hw⟩ | ⟨_, hnw, _⟩
            · exact Or.inl rfl
            · simp [Token.isWhere] at hnw
          · exact Or.inr ⟨g, hg', hc⟩
      · have hred : fwtList (.group k cs' :: ts) =
            find_where_tokens (.group k cs') ++ fwtList ts := by
          cases k <;> first | (exact absurd rfl hk) | rfl
        have hnw : (Token.group k cs').isWhere = false := by
          cases k <;> first | (exact absurd rfl hk) | rfl
        rw [hred, List.mem_append, ih]
        constructor
        · rintro (hmem | ⟨g, hg, hc⟩)
          · exact ⟨.group k cs', List.mem_cons_self _ _, Or.inr ⟨rfl, hnw, hmem⟩⟩
          · exact ⟨g, List.mem_cons_of_mem _ hg, hc⟩
        · rintro ⟨g, hg, hc⟩
          rcases List.mem_cons.mp hg with rfl | hg'
          · rcases hc with ⟨rfl, hw⟩ | ⟨_, _, hmem⟩
            · rw [hnw] at hw; exact absurd hw (by simp)
            · exact Or.inl hmem
          · exact Or.inr ⟨g, hg', hc⟩

/-- The size of a list member bounds the size of a group built over the
list. -/
theorem sizeOf_mem_lt_group (g : Token) (k : GroupKind) (cs : List Token)
    (hg : g ∈ cs) : sizeOf g < sizeOf (Token.group k cs) := by
  have h := List.sizeOf_lt_of_mem hg
  have hs : sizeOf (Token.group k cs) = 1 + sizeOf k + sizeOf cs := by
    simp [Token.group.sizeOf_spec]
  omega

/-- C7 (amended): `find_where_tokens` collects exactly the `Where` groups
reachable by recursive descent through group children without passing
through another `Where` group: all such clauses are collected (also inside
parenthesized sub-expressions and subqueries), but — because a `Where` token
is appended without being descended into — a `WHERE` clause nested inside
another `WHERE` clause is not. -/
theorem find_where_collects_iff (t w : Token) :
    w ∈ find_where_tokens t ↔ CollectsWhere t w := by
  generalize hn : sizeOf t = n
  induction n using Nat.strong_induction_on generalizing t w with
  | _ n ih =>
    cases t with
    | leaf tt s =>
      rw [find_where_tokens]
      simp only [List.not_mem_nil, false_iff]
      intro h
      cases h with
      | here hmem _ => exact absurd hmem (by simp [Token.tokens])
      | nested hmem _ _ _ => exact absurd hmem (by simp [Token.tokens])
    | group k cs =>
      rw [find_where_tokens, mem_fwtList_iff]
      constructor
      · rintro ⟨g, hg, (⟨rfl, hw⟩ | ⟨hgr, hnw, hmem⟩)⟩
        · exact CollectsWhere.here hg hw
        · have hrec := ih (sizeOf g) (by subst hn; exact sizeOf_mem_lt_group g k cs hg) g w rfl
          exact CollectsWhere.nested hg hgr hnw (hrec.mp hmem)
      · intro h
        cases h with
        | here hmem hw => exact ⟨w, hmem, Or.inl ⟨rfl, hw⟩⟩
        | @nested _ g _ hmem hgr hnw hcw =>
          have hrec := ih (sizeOf g) (by subst hn; exact sizeOf_mem_lt_group g k cs hmem) g w rfl
          exact ⟨g, hmem, Or.inr ⟨hgr, hnw, hrec.mpr hcw⟩⟩

/-- C7 (counterexample): in `nestedWhereStmt` the clause `innerWhere` is a
`WHERE` clause nested inside the parenthesized subquery of `outerWhere`, yet
`find_where_tokens` collects only `outerWhere`, and the extractor yields no
condition for the statement even though `innerWhere` alone yields one. -/
theorem nestedWhere_missed :
    find_where_tokens nestedWhereStmt = [outerWhere] ∧
    innerWhere.isWhere = true ∧ innerWhere ≠ outerWhere ∧
    innerWhere ∈ parenSubquery.tokens ∧ parenSubquery ∈ outerWhere.tokens ∧
    parse_sql_where_clauses (some [nestedWhereStmt]) = [] ∧
    parse_sql_where_clauses (some [.group .statement [innerWhere]]) ≠ [] := by
  decide

/-- Characters are equal iff their code points are. -/
theorem char_eq_iff_toNat (c d : Char) : c = d ↔ c.toNat = d.toNat :=
  ⟨fun h => by rw [h], char_eq_of_toNat_eq⟩

/-- The code points of the six Python whitespace characters. -/
theorem pySpaceCodes :
    (' ' : Char).toNat = 32 ∧ ('\t' : Char).toNat = 9 ∧ ('\n' : Char).toNat = 10 ∧
    ('\r' : Char).toNat = 13 ∧ (Char.ofNat 11).toNat = 11 ∧ (Char.ofNat 12).toNat = 12 := by
  decide

/-- `asciiUpper` is idempotent. -/
theorem asciiUpper_asciiUpper (c : Char) : asciiUpper (asciiUpper c) = asciiUpper c := by
  by_cases h : 97 ≤ c.toNat ∧ c.toNat ≤ 122
  · have e1 : asciiUpper c = Char.ofNat (c.toNat - 32) := by unfold asciiUpper; rw [if_pos h]
    have ht : (Char.ofNat (c.toNat - 32)).toNat = c.toNat - 32 :=
      toNat_ofNat_upper _ (by omega) (by omega)
    rw [e1]
    unfold asciiUpper
    rw [if_neg (by rw [ht]; omega)]
  · have e1 : asciiUpper c = c := by unfold asciiUpper; rw [if_neg h]
    rw [e1, e1]

/-- `asciiUpper` neither creates nor destroys whitespace. -/
theorem isPySpace_asciiUpper (c : Char) : isPySpace (asciiUpper c) = isPySpace c := by
  by_cases h : 97 ≤ c.toNat ∧ c.toNat ≤ 122
  · have e1 : asciiUpper c = Char.ofNat (c.toNat - 32) := by unfold asciiUpper; rw [if_pos h]
    have ht : (Char.ofNat (c.toNat - 32)).toNat = c.toNat - 32 :=
      toNat_ofNat_upper _ (by omega) (by omega)
    have h1 : isPySpace (Char.ofNat (c.toNat - 32)) = false := by
      unfold isPySpace
      rw [decide_eq_false_iff_not]
      rw [char_eq_iff_toNat, char_eq_iff_toNat, char_eq_iff_toNat, char_eq_iff_toNat,
          char_eq_iff_toNat, char_eq_iff_toNat]
      rw [ht, pySpaceCodes.1, pySpaceCodes.2.1, pySpaceCodes.2.2.1, pySpaceCodes.2.2.2.1,
          pySpaceCodes.2.2.2.2.1, pySpaceCodes.2.2.2.2.2]
      omega
    have h2 : isPySpace c = false := by
      unfold isPySpace
      rw [decide_eq_false_iff_not]
      rw [char_eq_iff_toNat, char_eq_iff_toNat, char_eq_iff_toNat, char_eq_iff_toNat,
          char_eq_iff_toNat, char_eq_iff_toNat]
      rw [pySpaceCodes.1, pySpaceCodes.2.1, pySpaceCodes.2.2.1, pySpaceCodes.2.2.2.1,
          pySpaceCodes.2.2.2.2.1, pySpaceCodes.2.2.2.2.2]
      omega
    rw [e1, h1, h2]
  · have e1 : asciiUpper c = c := by unfold asciiUpper; rw [if_neg h]
    rw [e1]

/-- `pyUpper` is idempotent. -/
theorem pyUpper_idem (l : Str) : pyUpper (pyUpper l) = pyUpper l := by
  unfold pyUpper
  rw [List.map_map]
  exact List.map_congr_left (fun c _ => asciiUpper_asciiUpper c)

/-- `dropWhile isPySpace` commutes with `map asciiUpper`. -/
theorem dropWhile_map_asciiUpper (l : Str) :
    (l.map asciiUpper).dropWhile isPySpace = (l.dropWhile isPySpace).map asciiUpper := by
  induction l with
  | nil => simp
  | cons c cs ih =>
    by_cases hc : isPySpace c
    · simp [List.dropWhile_cons, isPySpace_asciiUpper, hc, ih]
    · simp [List.dropWhile_cons, isPySpace_asciiUpper, hc]

/-- `pyUpper` commutes with `pyStrip`. -/
theorem pyUpper_pyStrip (l : Str) : pyUpper (pyStrip l) = pyStrip (pyUpper l) := by
  unfold pyStrip pyUpper
  rw [List.map_reverse, ← dropWhile_map_asciiUpper, List.map_reverse, ← dropWhile_map_asciiUpper]

/-- Every condition appended by `comparisonStep` has an operator of the form
`upper(strip(s))` (source line 102). -/
theorem operator_comparisonStep (c : Condition) (cs : List Token) (acc : List Condition)
    (h : c ∈ comparisonStep cs acc) :
    c ∈ acc ∨ ∃ s, c.operator = pyUpper (pyStrip s) := by
  unfold comparisonStep at h
  split at h
  · split at h
    · rcases List.mem_append.mp h with hacc | hc
      · exact Or.inl hacc
      · rcases List.mem_singleton.mp hc with rfl
        exact Or.inr ⟨_, rfl⟩
    · exact Or.inl h
  · exact Or.inl h

/-- Every condition appended by `comparisonPass` has an operator of the form
`upper(strip(s))`. -/
theorem operator_comparisonPass (c : Condition) (ts : List Token) (acc : List Condition)
    (h : c ∈ comparisonPass ts acc) :
    c ∈ acc ∨ ∃ s, c.operator = pyUpper (pyStrip s) := by
  induction ts generalizing acc with
  | nil => exact Or.inl (by simpa [comparisonPass] using h)
  | cons t ts ih =>
    cases t with
    | leaf tt s =>
      simp only [comparisonPass] at h
      exact ih acc h
    | group k cs =>
      cases k with
      | comparison =>
        simp only [comparisonPass] at h
        rcases ih _ h with hstep | hex
        · exact operator_comparisonStep c cs acc hstep
        · exact Or.inr hex
      | statement => simp only [comparisonPass] at h; exact ih acc h
      | whereClause => simp only [comparisonPass] at h; exact ih acc h
      | parenthesis => simp only [comparisonPass] at h; exact ih acc h
      | identifier => simp only [comparisonPass] at h; exact ih acc h
      | otherGroup => simp only [comparisonPass] at h; exact ih acc h

/-- Every condition appended by `fallbackScan` has an operator of the form
`strip(upper(s))` (source line 131). -/
theorem operator_fallbackScan (c : Condition) (l : List Token) (acc : List Condition)
    (h : c ∈ fallbackScan l acc) :
    c ∈ acc ∨ ∃ s, c.operator = pyStrip (pyUpper s) :=
  match l with
  | [] => Or.inl (by simpa [fallbackScan] using h)
  | [t] => Or.inl (by simpa [fallbackScan] using h)
  | [t, t'] => Or.inl (by simpa [fallbackScan] using h)
  | t0 :: t1 :: t2 :: rest => by
    have recRest : c ∈ fallbackScan rest [] → ∃ s, c.operator = pyStrip (pyUpper s) := by
      intro hm
      rcases operator_fallbackScan c rest [] hm with habs | hex
      · simp at habs
      · exact hex
    have recStep : c ∈ fallbackScan (t1 :: t2 :: rest) [] →
        ∃ s, c.operator = pyStrip (pyUpper s) := by
      intro hm
      rcases operator_fallbackScan c (t1 :: t2 :: rest) [] hm with habs | hex
      · simp at habs
      · exact hex
    rw [fallbackScan_append] at h
    rcases List.mem_append.mp h with hacc | h
    · exact Or.inl hacc
    · refine Or.inr ?_
      simp only [fallbackScan] at h
      cases hv : _extract_value_from_token t2 <;> rw [hv] at h
      case none =>
        dsimp only at h
        split_ifs at h <;> first | exact recRest h | exact recStep h
      case some v =>
        cases v with
        | str s =>
          dsimp only at h
          split_ifs at h <;>
            first
            | exact recRest h
            | exact recStep h
            | (rw [List.nil_append, fallbackScan_append] at h
               rcases List.mem_append.mp h with hc | hm
               · rcases List.mem_singleton.mp hc with rfl
                 exact ⟨_, rfl⟩
               · exact recRest hm)
        | list vs =>
          dsimp only at h
          split_ifs at h <;>
            first
            | exact recRest h
            | exact recStep h
            | (rw [List.nil_append, fallbackScan_append] at h
               rcases List.mem_append.mp h with hc | hm
               · rcases List.mem_singleton.mp hc with rfl
                 exact ⟨_, rfl⟩
               · exact recRest hm)

/-- C9: every Condition emitted by `parse_sql_where_clauses` — by the
grouped-comparison pass and by the fallback scan alike — has its operator
string normalized to upper case (applying `upper` to it changes nothing). -/
theorem operators_upper_normalized (parsed : Option (List Token)) (c : Condition)
    (h : c ∈ parse_sql_where_clauses parsed) : pyUpper c.operator = c.operator := by
  cases parsed with
  | none => simp [parse_sql_where_clauses] at h
  | some stmts =>
    rw [parse_decomposition, List.mem_flatMap] at h
    obtain ⟨s, _, h⟩ := h
    rw [List.mem_flatMap] at h
    obtain ⟨w, _, h⟩ := h
    rcases List.mem_append.mp h with h1 | h2
    · rcases operator_comparisonPass c _ [] h1 with habs | ⟨s', hop⟩
      · simp at habs
      · rw [hop, pyUpper_idem]
    · rcases operator_fallbackScan c _ [] h2 with habs | ⟨s', hop⟩
      · simp at habs
      · rw [hop, pyUpper_pyStrip, pyUpper_idem]

/-- Witness for C9: the duplicated condition of `dupPairStmt` has an
upper-normalized operator. -/
theorem operators_upper_normalized_witness :
    pyUpper dupCond.operator = dupCond.operator :=
  operators_upper_normalized (some [dupPairStmt]) dupCond (by decide)

/-- One quoted element of an `IN` list: its quote character and contents. -/
structure QElem where
  delim : Char
  content : Str
deriving DecidableEq

/-- The source text of one quoted element. -/
def renderElem (e : QElem) : Str := e.delim :: (e.content ++ [e.delim])

/-- The source text of a quoted list: separator text before each element
(commas, whitespace), the quoted elements in order, and trailing text. -/
def renderElems : List (Str × QElem) → Str → Str
  | [], tailSep => tailSep
  | (sep, e) :: rest, tailSep => sep ++ renderElem e ++ renderElems rest tailSep

/-- `splitAtChar` finds the first occurrence of its character. -/
theorem splitAtChar_append (q : Char) (a b : Str) (ha : q ∉ a) :
    splitAtChar q (a ++ q :: b) = some (a, b) := by
  induction a with
  | nil => simp [splitAtChar]
  | cons c cs ih =>
    have hcq : ¬ c = q := fun h => ha (by rw [h]; exact List.mem_cons_self _ _)
    rw [List.cons_append, splitAtChar, if_neg hcq,
        ih (fun h => ha (List.mem_cons_of_mem _ h))]
    rfl

/-- The scan yields nothing on quote-free text. -/
theorem findQuotedGo_noquote (fuel : Nat) (l : Str)
    (h : ∀ c ∈ l, ¬(c = sQuote ∨ c = dQuote)) : findQuotedGo fuel l = [] := by
  induction fuel generalizing l with
  | zero => cases l <;> rfl
  | succ f ih =>
    cases l with
    | nil => rfl
    | cons c rest =>
      rw [findQuotedGo, if_neg (h c (List.mem_cons_self _ _))]
      exact ih rest (fun d hd => h d (List.mem_cons_of_mem _ hd))

/-- The scan walks over quote-free separator text, spending one unit of fuel
per character. -/
theorem findQuotedGo_skip (sep : Str) (fuel : Nat) (l : Str)
    (hsep : ∀ c ∈ sep, ¬(c = sQuote ∨ c = dQuote)) (hf : sep.length ≤ fuel) :
    findQuotedGo fuel (sep ++ l) = findQuotedGo (fuel - sep.length) l := by
  induction sep generalizing fuel with
  | nil => simp
  | cons c cs ih =>
    cases fuel with
    | zero => simp at hf
    | succ f =>
      rw [List.cons_append, findQuotedGo, if_neg (hsep c (List.mem_cons_self _ _))]
      rw [ih f (fun d hd => hsep d (List.mem_cons_of_mem _ hd)) (by simpa using hf)]
      congr 1
      simp

/-- The scan over a rendered quoted list returns exactly the element
contents, in order. -/
theorem findQuotedGo_render (pairs : List (Str × QElem)) (tailSep : Str) (fuel : Nat)
    (hsep : ∀ p ∈ pairs, ∀ c ∈ p.1, ¬(c = sQuote ∨ c = dQuote))
    (htail : ∀ c ∈ tailSep, ¬(c = sQuote ∨ c = dQuote))
    (hwf : ∀ p ∈ pairs, (p.2.delim = sQuote ∨ p.2.delim = dQuote) ∧ p.2.delim ∉ p.2.content)
    (hf : (renderElems pairs tailSep).length ≤ fuel) :
    findQuotedGo fuel (renderElems pairs tailSep) = pairs.map (fun p => p.2.content) := by
  induction pairs generalizing fuel with
  | nil => exact findQuotedGo_noquote fuel tailSep htail
  | cons pe rest ih =>
    obtain ⟨sep, e⟩ := pe
    have hrew : renderElems ((sep, e) :: rest) tailSep =
        sep ++ (e.delim :: (e.content ++ e.delim :: renderElems rest tailSep)) := by
      simp [renderElems, renderElem]
    have hlen := hf
    rw [hrew] at hlen ⊢
    simp only [List.length_append, List.length_cons] at hlen
    rw [findQuotedGo_skip sep fuel _ (hsep (sep, e) (List.mem_cons_self _ _)) (by omega)]
    obtain ⟨f, hfeq⟩ : ∃ f, fuel - sep.length = f + 1 := ⟨fuel - sep.length - 1, by omega⟩
    rw [hfeq, findQuotedGo,
        if_pos ((hwf (sep, e) (List.mem_cons_self _ _)).1),
        splitAtChar_append _ _ _ ((hwf (sep, e) (List.mem_cons_self _ _)).2)]
    dsimp only
    rw [List.map_cons]
    congr 1
    exact ih f (fun p hp => hsep p (List.mem_cons_of_mem _ hp))
      (fun p hp => hwf p (List.mem_cons_of_mem _ hp)) (by omega)

/-- C5: for an `IN` value that is a parenthesized list of `n` quoted
elements — single- or double-quoted, with arbitrary quote-free separator
text (commas, whitespace) between them — value extraction returns exactly
the `n` element contents in source order. -/
theorem in_list_values_in_order (pcs : List Token) (pairs : List (Str × QElem)) (tailSep : Str)
    (hform : pyStrip (pySlice1m1 (Token.group .parenthesis pcs).str) = renderElems pairs tailSep)
    (hsep : ∀ p ∈ pairs, ∀ c ∈ p.1, ¬(c = sQuote ∨ c = dQuote))
    (htail : ∀ c ∈ tailSep, ¬(c = sQuote ∨ c = dQuote))
    (hwf : ∀ p ∈ pairs, (p.2.delim = sQuote ∨ p.2.delim = dQuote) ∧ p.2.delim ∉ p.2.content)
    (hne : pairs ≠ []) :
    _extract_value_from_token (.group .parenthesis pcs) =
      some (.list (pairs.map (fun p => p.2.content))) ∧
    (pairs.map (fun p => p.2.content)).length = pairs.length := by
  refine ⟨?_, List.length_map _ _⟩
  unfold _extract_value_from_token
  rw [if_neg (by simp [Token.ttypeOf]), if_pos (by simp [Token.isParenthesis])]
  rw [hform]
  have hnonempty : renderElems pairs tailSep ≠ [] := by
    match pairs, hne with
    | (sep, e) :: rest, _ => simp [renderElems, renderElem]
  rw [if_neg hnonempty]
  have hvals : findQuoted (renderElems pairs tailSep) = pairs.map (fun p => p.2.content) := by
    unfold findQuoted
    exact findQuotedGo_render pairs tailSep _ hsep htail hwf le_rfl
  rw [hvals]
  rw [if_neg (by simpa using hne)]

/-- Witness for C5: the list `('a', "b")` yields exactly `[a, b]`. -/
theorem in_list_values_in_order_witness :
    _extract_value_from_token parenListAB = some (.list ["a".toList, "b".toList]) :=
  (in_list_values_in_order
    [.leaf .punctuation "(".toList, .leaf .litString [sQuote, 'a', sQuote],
     .leaf .punctuation ",".toList, wsT, .leaf .litString [dQuote, 'b', dQuote],
     .leaf .punctuation ")".toList]
    [([], ⟨sQuote, "a".toList⟩), ([',', ' '], ⟨dQuote, "b".toList⟩)] []
    (by decide) (by decide) (by decide) (by decide) (by decide)).1
